import Mathlib

set_option maxRecDepth 8192

/-!
Shallow embedding of the `bitfields` library (`src/lib.rs`).

`StorageType` is `u32`.  Machine integers are modelled as `Nat`, reduced
modulo `2 ^ 32` exactly where the Rust `u32` operations wrap, and shift
amounts are masked modulo 32, matching the release-mode (wrapping)
semantics of the Rust operators.  `HashMap<u32, BitField>` is modelled as
an association list with unique keys, where `insert` overwrites the value
stored at an existing key.  Fallible operations return `Except Error`;
the Rust methods that take `&mut self` and return a `Result` are modelled
as functions returning the post-state paired with the result, so that the
state on the error paths is observable.
-/

/-- Bit width of the storage type: `mem::size_of::<StorageType>() * 8 = 32`. -/
def supported_bits : Nat := 32

/-- Reduction of a natural number to the range of `u32`. -/
def u32 (n : Nat) : Nat := n % 2 ^ 32

/-- Wrapping `u32` subtraction (release-mode semantics), for `b ≤ 2 ^ 32`. -/
def u32sub (a b : Nat) : Nat := (a + 2 ^ 32 - b) % 2 ^ 32

/-- Wrapping `u32` shift-left (release-mode semantics): the shift amount is
masked modulo the bit width 32 and the result is truncated to 32 bits. -/
def u32shl (a n : Nat) : Nat := (a <<< (n % 32)) % 2 ^ 32

/-- The `Error` enum of the library. -/
inductive Error where
  | DataTooLarge
  | OutOfBounds
  | WouldOverlap
  | TryFromError
deriving DecidableEq

/-- The `BitField` struct: starting bit offset and width of one field. -/
structure BitField where
  pos : Nat
  width : Nat
deriving DecidableEq

/-- The `BitFieldSet` struct: declared capacity, the packed storage word and
the position-keyed field map. -/
structure BitFieldSet where
  num_bits : Nat
  storage : Nat
  entries : List (Nat × BitField)
deriving DecidableEq

/-- Model of `HashMap::get` on the association-list representation. -/
def entriesGet : List (Nat × BitField) → Nat → Option BitField
  | [], _ => none
  | (k, v) :: rest, key => if k = key then some v else entriesGet rest key

/-- Model of `HashMap::contains_key`. -/
def entriesContains (es : List (Nat × BitField)) (key : Nat) : Bool :=
  (entriesGet es key).isSome

/-- Model of `HashMap::insert`: overwrites the value held at an existing key,
otherwise adds a new binding. -/
def entriesInsert : List (Nat × BitField) → Nat → BitField → List (Nat × BitField)
  | [], key, v => [(key, v)]
  | (k, w) :: rest, key, v =>
    if k = key then (key, v) :: rest else (k, w) :: entriesInsert rest key v

namespace BitFieldSet

/-- Rust `BitFieldSet::new`: rejects a requested capacity above the storage
width, otherwise builds a zeroed set recording the requested `num_bits`. -/
def new (num_bits : Nat) : Except Error BitFieldSet :=
  if num_bits > supported_bits then .error .OutOfBounds
  else .ok { num_bits := num_bits, storage := 0, entries := [] }

/-- Rust `impl From<StorageType> for BitFieldSet`: full capacity, storage
primed with the raw word, no registered fields. -/
def fromRaw (raw : Nat) : BitFieldSet :=
  { num_bits := supported_bits, storage := u32 raw, entries := [] }

/-- Rust `BitFieldSet::check_overflow(width, pos)`: `width + pos` is a `u32`
addition, hence taken modulo `2 ^ 32`. -/
def check_overflow (s : BitFieldSet) (width pos : Nat) : Except Error Unit :=
  if (width + pos) % 2 ^ 32 > s.num_bits then .error .OutOfBounds else .ok ()

/-- Rust `BitFieldSet::add`: position bound check, shared overflow check
(called as `check_overflow(width, pos)`), exact-position overlap check, then
registration of the entry. -/
def add (s : BitFieldSet) (pos width : Nat) : BitFieldSet × Except Error Unit :=
  if pos > s.num_bits then (s, .error .OutOfBounds)
  else
    match s.check_overflow width pos with
    | .error e => (s, .error e)
    | .ok _ =>
      if entriesContains s.entries pos then (s, .error .WouldOverlap)
      else ({ s with entries := entriesInsert s.entries pos ⟨pos, width⟩ }, .ok ())

/-- Rust `BitFieldSet::insert<D>`: `sizeD` stands for `mem::size_of::<D>()`
and `data` for the argument after the value-preserving `Into<StorageType>`
conversion.  The overflow check is called as `check_overflow(pos, width)`
(the argument order of the source), the `DataTooLarge` test compares the
byte size of `D` with `num_bits`, and on success `data << pos` is OR-ed
into storage without clearing the target range. -/
def insert (s : BitFieldSet) (sizeD pos width data : Nat) :
    BitFieldSet × Except Error Nat :=
  if pos > s.num_bits then (s, .error .OutOfBounds)
  else
    let data := u32 data
    let data_too_large := sizeD > s.num_bits
    match s.check_overflow pos width with
    | .error e => (s, .error e)
    | .ok _ =>
      if data_too_large then (s, .error .DataTooLarge)
      else
        ({ s with
            storage := s.storage ||| u32shl data pos,
            entries := entriesInsert s.entries pos ⟨pos, width⟩ }, .ok data)

/-- Rust `BitFieldSet::get`: looks up the entry at `pos`, computes the mask
`(2 as StorageType).pow(entry.width) - 1` (wrapping, as in a release build),
shifts it to `entry.pos`, masks the storage word and shifts back down. -/
def get (s : BitFieldSet) (pos : Nat) : Option Nat :=
  match entriesGet s.entries pos with
  | none => none
  | some entry =>
    let mask := u32sub (2 ^ entry.width % 2 ^ 32) 1
    let mask := u32shl mask entry.pos
    let value := s.storage &&& mask
    let value := value >>> (entry.pos % 32)
    some value

/-- Rust `BitFieldSet::get_as<T>`: `tryFrom` stands for `T::try_from`, with
`none` for a rejected conversion; every failure is `TryFromError`. -/
def get_as {α : Type} (s : BitFieldSet) (tryFrom : Nat → Option α) (pos : Nat) :
    Except Error α :=
  match s.get pos with
  | none => .error .TryFromError
  | some value =>
    match tryFrom value with
    | none => .error .TryFromError
    | some t => .ok t

/-- Rust `BitFieldSet::get_raw`: the packed word verbatim. -/
def get_raw (s : BitFieldSet) : Nat := s.storage

end BitFieldSet

/-- Data-model well-formedness from the spec (section 3): capacity within the
storage width and every registered entry keyed by its own position and lying
within the declared capacity. -/
def Wf (s : BitFieldSet) : Prop :=
  s.num_bits ≤ 32 ∧
  ∀ kv ∈ s.entries, kv.2.pos = kv.1 ∧ kv.2.pos + kv.2.width ≤ s.num_bits

/-- States reachable by any sequence of the four state-building operations,
with arbitrary arguments, keeping the post-state also of failed calls. -/
inductive Reachable : BitFieldSet → Prop where
  | ofNew : ∀ n s, BitFieldSet.new n = Except.ok s → Reachable s
  | ofFromRaw : ∀ raw, Reachable (BitFieldSet.fromRaw raw)
  | ofAdd : ∀ s pos width, Reachable s → Reachable (s.add pos width).1
  | ofInsert : ∀ s sizeD pos width data, Reachable s →
      Reachable (s.insert sizeD pos width data).1

/-- True when the entry registered at `pos` makes the mask computation of
`get` overflow: `(2 as StorageType).pow(entry.width)` must represent the
exact value `2 ^ width`, which exceeds `u32::MAX = 2 ^ 32 - 1`. -/
def getPowOverflows (s : BitFieldSet) (pos : Nat) : Bool :=
  match entriesGet s.entries pos with
  | none => false
  | some entry => decide (2 ^ entry.width > 2 ^ 32 - 1)

/-- The fresh 8-bit set of the concrete scenario of the spec (section 8). -/
def demoBase : BitFieldSet := ⟨8, 0, []⟩

/-- The scenario state after the three typed inserts (values 1, 2, 1 of byte
size 1 at positions 0, 2, 7 with widths 2, 5, 1). -/
def demoIns : BitFieldSet :=
  (((demoBase.insert 1 0 2 1).1.insert 1 2 5 2).1.insert 1 7 1 1).1

/-- The scenario state rebuilt from the exported raw word with the same three
fields re-registered through the metadata-only `add`. -/
def demoFrom : BitFieldSet :=
  ((((BitFieldSet.fromRaw demoIns.get_raw).add 0 2).1.add 2 5).1.add 7 1).1

/-! ## Helper lemmas -/

theorem entriesGet_mem {es : List (Nat × BitField)} {key : Nat} {e : BitField}
    (h : entriesGet es key = some e) : (key, e) ∈ es := by
  induction es with
  | nil => simp [entriesGet] at h
  | cons kv rest ih =>
    obtain ⟨k, v⟩ := kv
    by_cases hk : k = key
    · subst hk
      simp [entriesGet] at h
      subst h
      exact List.mem_cons_self _ _
    · simp [entriesGet, hk] at h
      exact List.mem_cons_of_mem _ (ih h)

theorem entriesGet_insert_self (es : List (Nat × BitField)) (key : Nat) (v : BitField) :
    entriesGet (entriesInsert es key v) key = some v := by
  induction es with
  | nil => simp [entriesInsert, entriesGet]
  | cons kw rest ih =>
    obtain ⟨k, w⟩ := kw
    by_cases hk : k = key
    · simp [entriesInsert, hk, entriesGet]
    · simp [entriesInsert, hk, entriesGet, ih]

theorem mem_entriesInsert {es : List (Nat × BitField)} {key : Nat} {v : BitField}
    {kv : Nat × BitField} (h : kv ∈ entriesInsert es key v) :
    kv = (key, v) ∨ kv ∈ es := by
  induction es with
  | nil => simpa [entriesInsert] using h
  | cons kw rest ih =>
    obtain ⟨k, w⟩ := kw
    by_cases hk : k = key
    · simp only [entriesInsert, if_pos hk, List.mem_cons] at h
      rcases h with h | h
      · exact Or.inl h
      · exact Or.inr (List.mem_cons_of_mem _ h)
    · simp only [entriesInsert, if_neg hk, List.mem_cons] at h
      rcases h with h | h
      · exact Or.inr (by simp [h])
      · rcases ih h with h' | h'
        · exact Or.inl h'
        · exact Or.inr (List.mem_cons_of_mem _ h')

theorem u32sub_two_pow_mod {w : Nat} (hw : w ≤ 32) :
    u32sub (2 ^ w % 2 ^ 32) 1 = 2 ^ w - 1 := by
  unfold u32sub
  rcases Nat.lt_or_ge w 32 with h | h
  · have h2 : 2 ^ w < 2 ^ 32 := Nat.pow_lt_pow_right (by norm_num) h
    have h1 : (1 : Nat) ≤ 2 ^ w := Nat.one_le_two_pow
    rw [Nat.mod_eq_of_lt h2]
    have heq : 2 ^ w + 2 ^ 32 - 1 = (2 ^ w - 1) + 2 ^ 32 := by omega
    rw [heq, Nat.add_mod_right, Nat.mod_eq_of_lt (by omega)]
  · have hw32 : w = 32 := le_antisymm hw h
    subst hw32
    decide

theorem shiftLeft_lt_two_pow {a w p : Nat} (ha : a < 2 ^ w) :
    a <<< p < 2 ^ (w + p) := by
  rw [Nat.shiftLeft_eq, Nat.pow_add]
  exact Nat.mul_lt_mul_of_lt_of_le ha (Nat.le_refl _) (Nat.pos_pow_of_pos _ (by norm_num))

theorem get_spec (s : BitFieldSet) (pos : Nat) (e : BitField)
    (he : entriesGet s.entries pos = some e) (hpos : e.pos = pos)
    (hpw : pos + e.width ≤ 32) :
    s.get pos = some ((s.storage &&& ((2 ^ e.width - 1) <<< pos)) >>> pos) := by
  unfold BitFieldSet.get
  rw [he]
  dsimp only
  rw [hpos, u32sub_two_pow_mod (by omega)]
  rcases Nat.lt_or_ge pos 32 with hp | hp
  · have hm1 : 2 ^ e.width - 1 < 2 ^ e.width := by
      have := Nat.one_le_two_pow (n := e.width); omega
    have hm2 : (2 ^ e.width - 1) <<< pos < 2 ^ 32 := by
      calc (2 ^ e.width - 1) <<< pos < 2 ^ (e.width + pos) := shiftLeft_lt_two_pow hm1
        _ ≤ 2 ^ 32 := Nat.pow_le_pow_right (by norm_num) (by omega)
    rw [u32shl, Nat.mod_eq_of_lt hp, Nat.mod_eq_of_lt hm2]
  · have hp32 : pos = 32 := by omega
    have hw0 : e.width = 0 := by omega
    subst hp32
    rw [hw0]
    simp [u32shl]

theorem testBit_false_of_and_mask_eq_zero {a m i : Nat} (hc : a &&& m = 0)
    (hm : m.testBit i = true) : a.testBit i = false := by
  have h := congrArg (fun x => Nat.testBit x i) hc
  simp only [Nat.testBit_and, Nat.zero_testBit, Bool.and_eq_false_iff] at h
  rcases h with h | h
  · exact h
  · rw [hm] at h; cases h

theorem or_extract {a v p w : Nat} (hpw : p + w ≤ 32) (hv : v < 2 ^ w)
    (hc : a &&& ((2 ^ w - 1) <<< p) = 0) :
    ((a ||| u32shl v p) &&& ((2 ^ w - 1) <<< p)) >>> p = v := by
  rcases Nat.eq_zero_or_pos w with hw0 | hwpos
  · subst hw0
    have hv0 : v = 0 := by omega
    subst hv0
    simp [u32shl]
  · have hp31 : p < 32 := by omega
    rw [u32shl, Nat.mod_eq_of_lt hp31]
    apply Nat.eq_of_testBit_eq
    intro j
    rw [Nat.testBit_shiftRight, Nat.testBit_and, Nat.testBit_or,
      Nat.testBit_mod_two_pow, Nat.testBit_shiftLeft, Nat.testBit_shiftLeft,
      Nat.testBit_two_pow_sub_one]
    simp only [ge_iff_le, Nat.le_add_right, decide_True, Bool.true_and,
      Nat.add_sub_cancel_left]
    by_cases hj : j < w
    · have ha : a.testBit (p + j) = false := by
        refine testBit_false_of_and_mask_eq_zero hc ?_
        rw [Nat.testBit_shiftLeft, Nat.testBit_two_pow_sub_one]
        simp [Nat.le_add_right, Nat.add_sub_cancel_left, hj]
      have hlt : p + j < 32 := by omega
      simp [ha, hj, hlt]
    · have hvj : v.testBit j = false :=
        Nat.testBit_lt_two_pow
          (lt_of_lt_of_le hv (Nat.pow_le_pow_right (by norm_num) (by omega)))
      simp [hj, hvj]

/-! ## Claim theorems -/

/-- C3: starting from `new(8)`, inserting value 1 at position 0 with width 2,
value 2 at position 2 with width 5 and value 1 at position 7 with width 1 all
succeed; afterwards the raw word equals binary 10001001 (0x89) and `get` at
positions 0, 2 and 7 returns 1, 2 and 1; re-importing the exported raw word
via the raw constructor and re-registering the same three fields with `add`
reproduces identical reads. -/
theorem c3_concrete_scenario :
    BitFieldSet.new 8 = Except.ok demoBase ∧
    (demoBase.insert 1 0 2 1).2 = Except.ok 1 ∧
    ((demoBase.insert 1 0 2 1).1.insert 1 2 5 2).2 = Except.ok 2 ∧
    (((demoBase.insert 1 0 2 1).1.insert 1 2 5 2).1.insert 1 7 1 1).2 = Except.ok 1 ∧
    demoIns.get_raw = 0b10001001 ∧
    demoIns.get 0 = some 1 ∧ demoIns.get 2 = some 2 ∧ demoIns.get 7 = some 1 ∧
    ((BitFieldSet.fromRaw demoIns.get_raw).add 0 2).2 = Except.ok () ∧
    (((BitFieldSet.fromRaw demoIns.get_raw).add 0 2).1.add 2 5).2 = Except.ok () ∧
    ((((BitFieldSet.fromRaw demoIns.get_raw).add 0 2).1.add 2 5).1.add 7 1).2 =
      Except.ok () ∧
    demoFrom.get 0 = some 1 ∧ demoFrom.get 2 = some 2 ∧ demoFrom.get 7 = some 1 :=
  ⟨rfl, rfl, rfl, rfl, rfl, rfl, rfl, rfl, rfl, rfl, rfl, rfl, rfl, rfl⟩

/-- C4, counterexample: `new(8)` succeeds but records the requested
`num_bits = 8`, not the full storage capacity 32 as the claim states.
(The repository's own test relies on this: `new(8)` then `add(8, 9)` is
expected to fail with `OutOfBounds`, which requires `num_bits = 8`.) -/
theorem c4_counterexample :
    BitFieldSet.new 8 = Except.ok ⟨8, 0, []⟩ ∧ (8 : Nat) ≠ 32 ∧
    (demoBase.add 8 9).2 = Except.error Error.OutOfBounds :=
  ⟨rfl, by decide, rfl⟩

/-- C4, amended: `new(num_bits)` fails with `OutOfBounds` exactly when
`num_bits` exceeds the storage width 32; on success it yields a set with zero
storage, no entries, and `num_bits` recorded as the requested value. -/
theorem c4_new_contract (num_bits : Nat) :
    (BitFieldSet.new num_bits = Except.error Error.OutOfBounds ↔ num_bits > 32) ∧
    (num_bits ≤ 32 → BitFieldSet.new num_bits = Except.ok ⟨num_bits, 0, []⟩) := by
  constructor
  · by_cases h : num_bits > 32 <;>
      simp [BitFieldSet.new, supported_bits, h]
  · intro h
    simp [BitFieldSet.new, supported_bits, Nat.not_lt.mpr h]

/-- C4, witness: the amended contract evaluated at 8 and at 33. -/
theorem c4_witness :
    BitFieldSet.new 8 = Except.ok ⟨8, 0, []⟩ ∧
    BitFieldSet.new 33 = Except.error Error.OutOfBounds :=
  ⟨(c4_new_contract 8).2 (by decide), (c4_new_contract 33).1.mpr (by decide)⟩

/-- C10: on a 32-bit set, `add(0, 32)` is accepted, and then the mask
computation of `get(0)` must represent `2 ^ 32`, which exceeds
`u32::MAX = 2 ^ 32 - 1`: `(2 as StorageType).pow(entry.width)` overflows
(panicking in a debug build), contradicting the claim that the decode path
involves no arithmetic overflow for every accepted width. -/
theorem c10_get_mask_overflow :
    ((BitFieldSet.fromRaw 0).add 0 32).2 = Except.ok () ∧
    getPowOverflows ((BitFieldSet.fromRaw 0).add 0 32).1 0 = true :=
  ⟨rfl, by decide⟩

/-- C5: `add(pos, width)` fails with `OutOfBounds` exactly when
`pos > num_bits` or the `u32` sum `pos + width` (taken modulo `2 ^ 32`, as
`check_overflow` adds two `u32`s) exceeds `num_bits`; otherwise it fails with
`WouldOverlap` exactly when a field is already registered at exactly `pos`,
leaving the set (hence the original field) untouched; otherwise it succeeds
and only registers the new entry, so a registration whose bit range merely
intersects an existing field at a different start position is accepted. -/
theorem c5_add_contract (s : BitFieldSet) (pos width : Nat) :
    (s.add pos width = (s, Except.error Error.OutOfBounds) ↔
      pos > s.num_bits ∨ (width + pos) % 2 ^ 32 > s.num_bits) ∧
    (s.add pos width = (s, Except.error Error.WouldOverlap) ↔
      ¬ pos > s.num_bits ∧ ¬ (width + pos) % 2 ^ 32 > s.num_bits ∧
        entriesContains s.entries pos = true) ∧
    (s.add pos width =
        ({ s with entries := entriesInsert s.entries pos ⟨pos, width⟩ },
          Except.ok ()) ↔
      ¬ pos > s.num_bits ∧ ¬ (width + pos) % 2 ^ 32 > s.num_bits ∧
        entriesContains s.entries pos = false) := by
  unfold BitFieldSet.add BitFieldSet.check_overflow
  by_cases h1 : pos > s.num_bits
  · rw [if_pos h1]
    simp [h1]
  · rw [if_neg h1]
    by_cases h2 : (width + pos) % 2 ^ 32 > s.num_bits
    · rw [if_pos h2]
      have h2n : s.num_bits < (width + pos) % 4294967296 := by omega
      simp [h1, h2n]
    · rw [if_neg h2]
      have h2n : ¬ s.num_bits < (width + pos) % 4294967296 := by omega
      cases h3 : entriesContains s.entries pos <;>
        simp [h1, h2n, h3]

/-- C8: whenever `add` or `insert` returns an error, the returned post-state
is exactly the pre-state: both the storage word and the entries mapping are
unchanged. -/
theorem c8_error_leaves_state (s : BitFieldSet) (pos width sizeD data : Nat) :
    (∀ e, (s.add pos width).2 = Except.error e → (s.add pos width).1 = s) ∧
    (∀ e, (s.insert sizeD pos width data).2 = Except.error e →
      (s.insert sizeD pos width data).1 = s) := by
  constructor
  · intro e he
    unfold BitFieldSet.add BitFieldSet.check_overflow at he ⊢
    by_cases h1 : pos > s.num_bits
    · rw [if_pos h1]
    · rw [if_neg h1] at he ⊢
      by_cases h2 : (width + pos) % 2 ^ 32 > s.num_bits
      · rw [if_pos h2]
      · rw [if_neg h2] at he ⊢
        cases h3 : entriesContains s.entries pos
        · exfalso
          rw [h3] at he
          simp at he
        · simp
  · intro e he
    unfold BitFieldSet.insert BitFieldSet.check_overflow at he ⊢
    by_cases h1 : pos > s.num_bits
    · rw [if_pos h1]
    · rw [if_neg h1] at he ⊢
      by_cases h2 : (pos + width) % 2 ^ 32 > s.num_bits
      · rw [if_pos h2]
      · rw [if_neg h2] at he ⊢
        by_cases h3 : sizeD > s.num_bits
        · simp [h3]
        · simp [h3] at he

/-- C8, witness: an out-of-bounds `add` and an out-of-bounds `insert` on a
full-width set both leave the state untouched. -/
theorem c8_witness :
    ((BitFieldSet.fromRaw 0).add 33 0).1 = BitFieldSet.fromRaw 0 ∧
    ((BitFieldSet.fromRaw 0).insert 1 33 0 0).1 = BitFieldSet.fromRaw 0 :=
  ⟨(c8_error_leaves_state (BitFieldSet.fromRaw 0) 33 0 1 0).1 Error.OutOfBounds rfl,
    (c8_error_leaves_state (BitFieldSet.fromRaw 0) 33 0 1 0).2 Error.OutOfBounds rfl⟩

/-- C2: a successful `insert(pos, width, data)` sets storage to the bitwise OR
of the previous storage with `data << pos` (the `u32` shift), without first
clearing the target bit range — every bit previously set in storage persists —
registers/overwrites the entry at `pos` with the given width, and returns the
converted, unmasked `data` value. -/
theorem c2_insert_success (s : BitFieldSet) (sizeD pos width data : Nat)
    (hdata : data < 2 ^ 32) (h1 : ¬ pos > s.num_bits)
    (h2 : ¬ (pos + width) % 2 ^ 32 > s.num_bits) (h3 : ¬ sizeD > s.num_bits) :
    s.insert sizeD pos width data =
      ({ s with storage := s.storage ||| u32shl data pos,
                entries := entriesInsert s.entries pos ⟨pos, width⟩ },
        Except.ok data) ∧
    ∀ i, s.storage.testBit i = true →
      (s.storage ||| u32shl data pos).testBit i = true := by
  constructor
  · unfold BitFieldSet.insert BitFieldSet.check_overflow
    rw [if_neg h1, if_neg h2]
    have hu : u32 data = data := Nat.mod_eq_of_lt hdata
    simp [h3, hu]
  · intro i hi
    rw [Nat.testBit_or, hi]
    simp

/-- C2, witness: the contract evaluated on a raw-primed set at position 3. -/
theorem c2_witness :
    (BitFieldSet.fromRaw 5).insert 1 3 4 6 =
      ({ BitFieldSet.fromRaw 5 with
          storage := (BitFieldSet.fromRaw 5).storage ||| u32shl 6 3,
          entries := entriesInsert (BitFieldSet.fromRaw 5).entries 3 ⟨3, 4⟩ },
        Except.ok 6) :=
  (c2_insert_success (BitFieldSet.fromRaw 5) 1 3 4 6 (by decide) (by decide)
    (by decide) (by decide)).1

/-- C7: with `pos ≤ num_bits` and `pos + width ≤ num_bits` on a set within
storage capacity, `insert` fails with `DataTooLarge` exactly when the byte
size of the source type exceeds `num_bits`; otherwise it succeeds for every
`data`, with no check that the value fits in `width` bits. -/
theorem c7_insert_data_too_large (s : BitFieldSet) (sizeD pos width data : Nat)
    (hnb : s.num_bits ≤ 32) (hpos : pos ≤ s.num_bits)
    (hpw : pos + width ≤ s.num_bits) :
    ((s.insert sizeD pos width data).2 = Except.error Error.DataTooLarge ↔
      sizeD > s.num_bits) ∧
    (sizeD ≤ s.num_bits → (s.insert sizeD pos width data).2 = Except.ok (u32 data)) := by
  have h1 : ¬ pos > s.num_bits := by omega
  have h2 : ¬ (pos + width) % 2 ^ 32 > s.num_bits := by
    have h32 : (2 : Nat) ^ 32 = 4294967296 := by norm_num
    rw [h32, Nat.mod_eq_of_lt (by omega)]
    omega
  unfold BitFieldSet.insert BitFieldSet.check_overflow
  rw [if_neg h1, if_neg h2]
  constructor
  · by_cases h3 : sizeD > s.num_bits <;> simp [h3]
  · intro h3
    simp [Nat.not_lt.mpr h3]

/-- C7, witness: on the 8-bit demo set, a 33-byte source type is rejected as
`DataTooLarge`, while a 1-byte source carrying the value 7 (which exceeds
`2 ^ width = 4` for `width = 2`) is accepted unmasked. -/
theorem c7_witness :
    (demoBase.insert 33 0 2 7).2 = Except.error Error.DataTooLarge ∧
    (demoBase.insert 1 0 2 7).2 = Except.ok (u32 7) :=
  ⟨(c7_insert_data_too_large demoBase 33 0 2 7 (by decide) (by decide)
      (by decide)).1.mpr (by decide),
    (c7_insert_data_too_large demoBase 1 0 2 7 (by decide) (by decide)
      (by decide)).2 (by decide)⟩

/-- C1, counterexample: on the state built by `from(3)` (storage bits 0 and 1
already set), the valid triple `(pos, width, value) = (0, 2, 0)` with
`0 < 2 ^ 2` and `0 + 2 ≤ num_bits` is inserted successfully, yet `get(0)`
returns 3, not the inserted value 0: the claim fails when quantified over
every state, because `insert` ORs without clearing the target range. -/
theorem c1_counterexample :
    ((BitFieldSet.fromRaw 3).insert 1 0 2 0).2 = Except.ok 0 ∧
    (0 : Nat) < 2 ^ 2 ∧ 0 + 2 ≤ (BitFieldSet.fromRaw 3).num_bits ∧
    ((BitFieldSet.fromRaw 3).insert 1 0 2 0).1.get 0 = some 3 ∧
    ((BitFieldSet.fromRaw 3).insert 1 0 2 0).1.get 0 ≠ some 0 :=
  ⟨rfl, by decide, by decide, rfl, by decide⟩

/-- C1, amended: for all valid `(pos, width, value)` with `value < 2 ^ width`
and `pos + width ≤ num_bits`, on every set within storage capacity that
accepts the insert (source byte size at most `num_bits`) and whose storage
has every bit of the target range `[pos, pos + width)` clear,
`insert(pos, width, value)` succeeds returning `value` and a subsequent
`get(pos)` returns exactly `value`. -/
theorem c1_round_trip (s : BitFieldSet) (sizeD pos width value : Nat)
    (hnb : s.num_bits ≤ 32) (hpw : pos + width ≤ s.num_bits)
    (hv : value < 2 ^ width) (hsz : sizeD ≤ s.num_bits)
    (hclear : s.storage &&& ((2 ^ width - 1) <<< pos) = 0) :
    (s.insert sizeD pos width value).2 = Except.ok value ∧
    (s.insert sizeD pos width value).1.get pos = some value := by
  have h1 : ¬ pos > s.num_bits := by omega
  have h2 : ¬ (pos + width) % 2 ^ 32 > s.num_bits := by
    have h32 : (2 : Nat) ^ 32 = 4294967296 := by norm_num
    rw [h32, Nat.mod_eq_of_lt (by omega)]
    omega
  have h3 : ¬ sizeD > s.num_bits := by omega
  have hvu : u32 value = value := by
    have hple : (2 : Nat) ^ width ≤ 2 ^ 32 :=
      Nat.pow_le_pow_right (by norm_num) (by omega)
    exact Nat.mod_eq_of_lt (by omega)
  have hins : s.insert sizeD pos width value =
      ({ s with storage := s.storage ||| u32shl value pos,
                entries := entriesInsert s.entries pos ⟨pos, width⟩ },
        Except.ok value) := by
    unfold BitFieldSet.insert BitFieldSet.check_overflow
    rw [if_neg h1, if_neg h2]
    simp [h3, hvu]
  refine ⟨by rw [hins], ?_⟩
  rw [hins]
  show BitFieldSet.get
      { s with storage := s.storage ||| u32shl value pos,
               entries := entriesInsert s.entries pos ⟨pos, width⟩ } pos = some value
  have hge : entriesGet (entriesInsert s.entries pos ⟨pos, width⟩) pos =
      some ⟨pos, width⟩ := entriesGet_insert_self _ _ _
  have hpw2 : pos + (BitField.mk pos width).width ≤ 32 := by
    show pos + width ≤ 32
    omega
  rw [get_spec _ pos ⟨pos, width⟩ hge rfl hpw2]
  exact congrArg some (or_extract (by omega) hv hclear)

/-- C1, witness: the amended round trip evaluated on the fresh 8-bit demo set
at `(pos, width, value) = (2, 5, 2)` with a 1-byte source type. -/
theorem c1_witness :
    (demoBase.insert 1 2 5 2).2 = Except.ok 2 ∧
    (demoBase.insert 1 2 5 2).1.get 2 = some 2 :=
  c1_round_trip demoBase 1 2 5 2 (by decide) (by decide) (by decide) (by decide)
    (by decide)

/-- C6: on a well-formed set, `get(pos)` returns nothing exactly when no field
is registered at `pos`; for a registered field of width `w` it returns
`(storage AND ((2 ^ w - 1) << pos)) >> pos`; and `get_as` fails — always with
`TryFromError` and never any other way — exactly when no field is registered
at `pos` or the conversion of the raw field value is rejected. -/
theorem c6_get_contract {α : Type} (s : BitFieldSet) (pos : Nat)
    (tryFrom : Nat → Option α) (hwf : Wf s) :
    (s.get pos = none ↔ entriesGet s.entries pos = none) ∧
    (∀ e, entriesGet s.entries pos = some e →
      s.get pos = some ((s.storage &&& ((2 ^ e.width - 1) <<< pos)) >>> pos)) ∧
    (s.get_as tryFrom pos = Except.error Error.TryFromError ↔
      entriesGet s.entries pos = none ∨
        ∃ v, s.get pos = some v ∧ tryFrom v = none) ∧
    (∀ e, s.get_as tryFrom pos = Except.error e → e = Error.TryFromError) := by
  obtain ⟨hnb, hent⟩ := hwf
  have hnone : s.get pos = none ↔ entriesGet s.entries pos = none := by
    unfold BitFieldSet.get
    cases h : entriesGet s.entries pos <;> simp [h]
  refine ⟨hnone, ?_, ?_, ?_⟩
  · intro e he
    have hprop := hent _ (entriesGet_mem he)
    dsimp only at hprop
    have hp2 : pos + e.width ≤ 32 := by omega
    exact get_spec s pos e he hprop.1 hp2
  · constructor
    · intro hfail
      unfold BitFieldSet.get_as at hfail
      cases hg : s.get pos with
      | none => exact Or.inl (hnone.mp hg)
      | some v =>
        rw [hg] at hfail
        dsimp only at hfail
        cases ht : tryFrom v with
        | none => exact Or.inr ⟨v, rfl, ht⟩
        | some t =>
          rw [ht] at hfail
          simp at hfail
    · intro h
      unfold BitFieldSet.get_as
      rcases h with h | ⟨v, hv, ht⟩
      · rw [hnone.mpr h]
      · rw [hv]
        dsimp only
        rw [ht]
  · intro e he
    unfold BitFieldSet.get_as at he
    cases hg : s.get pos with
    | none =>
      rw [hg] at he
      dsimp only at he
      injection he with h2
      exact h2.symm
    | some v =>
      rw [hg] at he
      dsimp only at he
      cases ht : tryFrom v with
      | none =>
        rw [ht] at he
        dsimp only at he
        injection he with h2
        exact h2.symm
      | some t =>
        rw [ht] at he
        simp at he

/-- C6, witness: the decode formula evaluated on the demo set at position 2
(width 5), with a conversion accepting values below 4. -/
theorem c6_witness :
    demoIns.get 2 = some ((demoIns.storage &&& ((2 ^ (5 : Nat) - 1) <<< 2)) >>> 2) :=
  (c6_get_contract demoIns 2 (fun v => if v < 4 then some v else none)
    ⟨by decide, by decide⟩).2.1 ⟨2, 5⟩ (by decide)

/-- C9, counterexample: on a full-width set, `add(1, u32::MAX)` succeeds
because the `u32` sum `u32::MAX + 1` wraps to 0 in `check_overflow`, and the
registered entry has `pos + width = 2 ^ 32` exceeding `num_bits = 32` as an
exact integer sum: the invariant as stated fails for this `u32` argument. -/
theorem c9_counterexample :
    ((BitFieldSet.fromRaw 0).add 1 (2 ^ 32 - 1)).2 = Except.ok () ∧
    ((BitFieldSet.fromRaw 0).add 1 (2 ^ 32 - 1)).1.entries =
      [(1, ⟨1, 2 ^ 32 - 1⟩)] ∧
    ¬ (1 + (2 ^ 32 - 1) ≤ ((BitFieldSet.fromRaw 0).add 1 (2 ^ 32 - 1)).1.num_bits) :=
  ⟨rfl, rfl, by decide⟩

/-- C9, amended: for every state reachable by any sequence of `new`, `from`,
`add` and `insert` with arbitrary arguments, every registered entry satisfies
`(pos + width) mod 2 ^ 32 ≤ num_bits` — the exact inequality
`pos + width ≤ num_bits` therefore holds whenever the `u32` sum does not
wrap. -/
theorem c9_entries_invariant (s : BitFieldSet) (hs : Reachable s) :
    ∀ kv ∈ s.entries, (kv.2.pos + kv.2.width) % 2 ^ 32 ≤ s.num_bits := by
  induction hs with
  | ofNew n t h =>
    intro kv hkv
    unfold BitFieldSet.new at h
    by_cases hn : n > supported_bits
    · rw [if_pos hn] at h
      cases h
    · rw [if_neg hn] at h
      injection h with h2
      rw [← h2] at hkv
      simp at hkv
  | ofFromRaw raw =>
    intro kv hkv
    simp [BitFieldSet.fromRaw] at hkv
  | ofAdd s pos width hr ih =>
    intro kv hkv
    unfold BitFieldSet.add BitFieldSet.check_overflow at hkv ⊢
    by_cases h1 : pos > s.num_bits
    · rw [if_pos h1] at hkv ⊢
      exact ih kv hkv
    · rw [if_neg h1] at hkv ⊢
      by_cases h2 : (width + pos) % 2 ^ 32 > s.num_bits
      · rw [if_pos h2] at hkv ⊢
        exact ih kv hkv
      · rw [if_neg h2] at hkv ⊢
        by_cases h3 : entriesContains s.entries pos = true
        · rw [if_pos h3] at hkv ⊢
          exact ih kv hkv
        · rw [if_neg h3] at hkv ⊢
          dsimp only at hkv ⊢
          rcases mem_entriesInsert hkv with h | h
          · subst h
            show (pos + width) % 2 ^ 32 ≤ s.num_bits
            rw [Nat.add_comm pos width]
            exact Nat.le_of_not_lt h2
          · exact ih kv h
  | ofInsert s sizeD pos width data hr ih =>
    intro kv hkv
    unfold BitFieldSet.insert BitFieldSet.check_overflow at hkv ⊢
    by_cases h1 : pos > s.num_bits
    · rw [if_pos h1] at hkv ⊢
      exact ih kv hkv
    · rw [if_neg h1] at hkv ⊢
      by_cases h2 : (pos + width) % 2 ^ 32 > s.num_bits
      · rw [if_pos h2] at hkv ⊢
        exact ih kv hkv
      · rw [if_neg h2] at hkv ⊢
        dsimp only at hkv ⊢
        by_cases h3 : sizeD > s.num_bits
        · rw [if_pos h3] at hkv ⊢
          exact ih kv hkv
        · rw [if_neg h3] at hkv ⊢
          dsimp only at hkv ⊢
          rcases mem_entriesInsert hkv with h | h
          · subst h
            show (pos + width) % 2 ^ 32 ≤ s.num_bits
            exact Nat.le_of_not_lt h2
          · exact ih kv h

/-- C9, witness: the amended invariant evaluated for the entry registered by
`add(1, 2)` on a raw-primed set. -/
theorem c9_witness :
    ((1 : Nat) + 2) % 2 ^ 32 ≤ ((BitFieldSet.fromRaw 0).add 1 2).1.num_bits :=
  c9_entries_invariant _ (Reachable.ofAdd _ 1 2 (Reachable.ofFromRaw 0))
    (1, ⟨1, 2⟩) (by decide)
